import Mathlib

/-!
Verification of the folder & file storage engine of the `fileserver` repository.

The development shallowly embeds the SQLite-backed catalog (tables `users`,
`folders`, `files`, `file_versions` from `src/backend/src/db/database.ts`) as
lists of records, and each Express route handler as a pure Lean function.
Mutating handlers return `Catalog × Except Err α`: the returned catalog is the
database after the request, so early-return error paths provably leave the
state unchanged.  JavaScript string operations (`sanitizeFilename`,
`String.prototype.trim`, `path.resolve`, `String.prototype.startsWith`) are
embedded as structurally recursive functions over `List Char` so that all
definitions evaluate inside the kernel.
-/

deriving instance DecidableEq for Except

namespace FileServer

/-! ## JavaScript string primitives over `List Char` -/

/-- Model of `filename.replace(/[\/\\]/g, '_')` from `sanitizeFilename`
(`src/backend/src/utils/fileUtils.ts`). -/
def replaceSeps (l : List Char) : List Char :=
  l.map (fun c => if c = '/' ∨ c = '\\' then '_' else c)

/-- Model of `.replace(/\.\./g, '_')`: a JavaScript global regex replace
consumes non-overlapping matches left to right. -/
def replaceDotDot : List Char → List Char
  | [] => []
  | [c] => [c]
  | c :: d :: rest =>
    if c = '.' ∧ d = '.' then '_' :: replaceDotDot rest
    else c :: replaceDotDot (d :: rest)

/-- Characters matched by `/[<>:"|?*]/` in `sanitizeFilename`. -/
def isIllegalChar (c : Char) : Bool :=
  c = '<' || c = '>' || c = ':' || c = '"' || c = '|' || c = '?' || c = '*'

/-- Model of `.replace(/[<>:"|?*]/g, '_')`. -/
def replaceIllegal (l : List Char) : List Char :=
  l.map (fun c => if isIllegalChar c then '_' else c)

/-- Model of `String.prototype.trim`: drop whitespace from both ends. -/
def trimChars (l : List Char) : List Char :=
  ((l.dropWhile Char.isWhitespace).reverse.dropWhile Char.isWhitespace).reverse

/-- Embedding of `sanitizeFilename` (`src/backend/src/utils/fileUtils.ts`):
replace path separators, then `..` sequences, then reserved characters, then
trim. -/
def sanitizeFilename (s : String) : String :=
  String.mk (trimChars (replaceIllegal (replaceDotDot (replaceSeps s.data))))

/-- Model of `name.trim()` as used by the folder-creation route. -/
def jsTrim (s : String) : String :=
  String.mk (trimChars s.data)

/-- Presence of the two-character substring `..`: the list splits as
`l₁ ++ '.' :: '.' :: l₂`. -/
def HasDotDot (l : List Char) : Prop :=
  ∃ l₁ l₂, l = l₁ ++ '.' :: '.' :: l₂

/-! ## POSIX path resolution (model of `path.resolve` / `startsWith`) -/

/-- Split a character list into path components at `/`. -/
def splitSlashAux : List Char → List Char → List (List Char)
  | cur, [] => [cur.reverse]
  | cur, c :: rest =>
    if c = '/' then cur.reverse :: splitSlashAux [] rest
    else splitSlashAux (c :: cur) rest

/-- Path components of a string, splitting at every `/`. -/
def splitSlash (l : List Char) : List (List Char) :=
  splitSlashAux [] l

/-- Canonicalization step of `path.resolve`: drop empty and `.` components,
let `..` pop the previous component (a no-op at the root). -/
def normComps (comps : List (List Char)) : List (List Char) :=
  comps.foldl
    (fun acc c =>
      if c = ([] : List Char) ∨ c = ['.'] then acc
      else if c = ['.', '.'] then acc.dropLast
      else acc ++ [c])
    []

/-- Join canonical components back into an absolute path string. -/
def joinComps : List (List Char) → List Char
  | [] => []
  | c :: rest => '/' :: (c ++ joinComps rest)

/-- Model of Node's `path.resolve(p)` executed with current working directory
`cwd` (an absolute path): a relative `p` is appended to `cwd`, then the
component list is canonicalized. -/
def resolvePath (cwd p : String) : String :=
  let comps :=
    if p.data.head? = some '/' then splitSlash p.data
    else splitSlash cwd.data ++ splitSlash p.data
  let n := normComps comps
  String.mk (if n.isEmpty then ['/'] else joinComps n)

/-- Model of JavaScript `s.startsWith(pre)`: plain string-prefix test. -/
def startsWithChars : List Char → List Char → Bool
  | _, [] => true
  | [], _ :: _ => false
  | c :: r, d :: q => c = d && startsWithChars r q

/-- Containment of a resolved path `p` inside a directory `root` in the
path-component sense: `p` is the root itself or extends it past a `/`
separator.  This is the property §4.4 of the spec demands of every access. -/
def withinRoot (root p : String) : Prop :=
  p = root ∨ startsWithChars p.data (root.data ++ ['/']) = true

instance (root p : String) : Decidable (withinRoot root p) :=
  inferInstanceAs (Decidable (p = root ∨ startsWithChars p.data (root.data ++ ['/']) = true))

/-! ## Catalog data model -/

/-- Error outcomes surfaced by the route handlers.  `invalidInput` models the
400 responses for malformed input, `notFound` the 404s, `conflict` the 400
"already exists" response of folder creation, `permissionDenied` the 403
owner checks, `accessDenied` the 403 path-escape response, `notFoundOnDisk`
the 404 "not found on disk" response, and `internalError` a thrown SQLite
constraint violation surfaced as a 500. -/
inductive Err where
  | invalidInput
  | notFound
  | conflict
  | permissionDenied
  | accessDenied
  | notFoundOnDisk
  | internalError
  deriving DecidableEq, Repr

/-- Row of the `users` table. -/
structure User where
  id : Nat
  username : String
  deriving DecidableEq, Repr

/-- Row of the `folders` table. -/
structure Folder where
  id : Nat
  name : String
  parentFolderId : Option Nat
  createdBy : Nat
  createdAt : Nat
  deriving DecidableEq, Repr

/-- Row of the `files` table (after the migration adding `folder_id` and
`current_version`). -/
structure FileRec where
  id : Nat
  filename : String
  originalFilename : String
  filePath : String
  fileSize : Nat
  mimeType : String
  folderId : Option Nat
  uploadedBy : Nat
  uploadedAt : Nat
  currentVersion : Nat
  deriving DecidableEq, Repr

/-- Row of the `file_versions` table. -/
structure FileVersion where
  id : Nat
  fileId : Nat
  versionNumber : Nat
  filePath : String
  fileSize : Nat
  uploadedBy : Nat
  uploadedAt : Nat
  deriving DecidableEq, Repr

/-- The relational catalog: the four tables plus the `AUTOINCREMENT`
counters. -/
structure Catalog where
  users : List User
  folders : List Folder
  files : List FileRec
  versions : List FileVersion
  nextFolderId : Nat
  nextFileId : Nat
  nextVersionId : Nat
  deriving DecidableEq, Repr

/-! ## SQL and JavaScript helpers -/

/-- SQL `a = b OR (a IS NULL AND b IS NULL)` on nullable integer columns,
with SQL's `NULL = x` collapsing to false inside a `WHERE` clause.  This is
the sibling/parent comparison used by the folder and file queries. -/
def sqlNullEq (a b : Option Nat) : Bool :=
  (match a, b with
   | some x, some y => x == y
   | _, _ => false) || (a.isNone && b.isNone)

/-- SQL `MAX(c)` over the values of a selected column: `NULL` on no rows. -/
def sqlMax : List Nat → Option Nat
  | [] => none
  | x :: r => some (r.foldl max x)

/-- SQL `SUM(c)`: `NULL` on no rows. -/
def sqlSum (l : List Nat) : Option Nat :=
  match l with
  | [] => none
  | _ => some l.sum

/-- JavaScript `x || d` for a possibly-null number `x`: null and 0 are both
falsy. -/
def jsor (o : Option Nat) (d : Nat) : Nat :=
  match o with
  | some v => if v = 0 then d else v
  | none => d

/-- JavaScript `x || 0` for a possibly-null number. -/
def jsor0 (o : Option Nat) : Nat :=
  jsor o 0

/-- JavaScript truthiness applied to an optional id (`folderId ? … : null`):
an absent value and the falsy id 0 both become null. -/
def jsTruthyId (o : Option Nat) : Option Nat :=
  match o with
  | some n => if n = 0 then none else some n
  | none => none

/-! ## Folder routes (`src/backend/src/routes/folders.ts`, given as
`src/unnamed/part_000`) -/

/-- Embedding of `POST /folders/create`: trim and sanitize the name (reject
empty results), 404 on a missing parent, 400 `conflict` when a sibling with
the same sanitized name exists under the same parent (or at root), otherwise
insert the row and return its id. -/
def createFolder (s : Catalog) (name : String) (parentFolderId : Option Nat)
    (userId now : Nat) : Catalog × Except Err Nat :=
  if (jsTrim name).length = 0 then (s, .error .invalidInput)
  else
    let sanitizedName := sanitizeFilename (jsTrim name)
    if sanitizedName.length = 0 then (s, .error .invalidInput)
    else
      let parentId := jsTruthyId parentFolderId
      let parentMissing : Bool :=
        match parentId with
        | some pid => (s.folders.find? (fun f : Folder => f.id == pid)).isNone
        | none => false
      if parentMissing then (s, .error .notFound)
      else
        match s.folders.find?
            (fun f : Folder => f.name == sanitizedName && sqlNullEq f.parentFolderId parentId) with
        | some _ => (s, .error .conflict)
        | none =>
          let newFolder : Folder :=
            ⟨s.nextFolderId, sanitizedName, parentId, userId, now⟩
          ({ s with folders := s.folders ++ [newFolder],
                    nextFolderId := s.nextFolderId + 1 },
           .ok s.nextFolderId)

/-- Subfolder entry returned by `GET /folders/contents`. -/
structure FolderView where
  id : Nat
  name : String
  createdAt : Nat
  createdBy : String
  deriving DecidableEq, Repr

/-- File entry returned by `GET /folders/contents`. -/
structure FileView where
  id : Nat
  filename : String
  size : Nat
  mimeType : String
  uploadedAt : Nat
  currentVersion : Nat
  uploadedBy : String
  deriving DecidableEq, Repr

/-- Response of `GET /folders/contents`. -/
structure ContentsView where
  folders : List FolderView
  files : List FileView
  deriving DecidableEq, Repr

/-- Order on subfolder entries used by `ORDER BY f.name`. -/
def folderNameLe (a b : FolderView) : Prop :=
  a.name ≤ b.name

instance : DecidableRel folderNameLe :=
  fun a b => inferInstanceAs (Decidable (a.name ≤ b.name))

/-- Order on file entries used by `ORDER BY f.uploaded_at DESC`. -/
def fileTimeDesc (a b : FileView) : Prop :=
  b.uploadedAt ≤ a.uploadedAt

instance : DecidableRel fileTimeDesc :=
  fun a b => Nat.decLe b.uploadedAt a.uploadedAt

/-- Embedding of `GET /folders/contents/:folderId?`: the route parameter is
truthiness-tested, so an id of 0 skips the existence check (ids are in fact
positive).  A present missing folder yields 404; otherwise direct children
are returned, subfolders ordered by name and files by upload time descending,
both joined against `users` (unique primary key `users.id`, so the join is a
lookup). -/
def listContents (s : Catalog) (folderId : Option Nat) : Except Err ContentsView :=
  let missing : Bool :=
    match folderId with
    | some fid =>
      if fid = 0 then false
      else (s.folders.find? (fun f : Folder => f.id == fid)).isNone
    | none => false
  if missing then .error .notFound
  else
    let subRows := s.folders.filter (fun f : Folder => sqlNullEq f.parentFolderId folderId)
    let subJoined := subRows.filterMap
      (fun f : Folder => (s.users.find? (fun u : User => u.id == f.createdBy)).map
        (fun u : User => FolderView.mk f.id f.name f.createdAt u.username))
    let fileRows := s.files.filter (fun f : FileRec => sqlNullEq f.folderId folderId)
    let fileJoined := fileRows.filterMap
      (fun f : FileRec => (s.users.find? (fun u : User => u.id == f.uploadedBy)).map
        (fun u : User => FileView.mk f.id f.originalFilename f.fileSize f.mimeType
          f.uploadedAt f.currentVersion u.username))
    .ok ⟨List.insertionSort folderNameLe subJoined,
         List.insertionSort fileTimeDesc fileJoined⟩

/-- One step of the SQLite `ON DELETE CASCADE` closure on
`folders.parent_folder_id`: ids of folders whose parent is already marked. -/
def childIds (fs : List Folder) (ids : Finset Nat) : Finset Nat :=
  ((fs.filter
      (fun f =>
        match f.parentFolderId with
        | some p => decide (p ∈ ids)
        | none => false)).map (fun f => f.id)).toFinset

/-- Iterated cascade closure starting from the deleted root id. -/
def deleteSet (fs : List Folder) (root : Nat) : Nat → Finset Nat
  | 0 => {root}
  | k + 1 => deleteSet fs root k ∪ childIds fs (deleteSet fs root k)

/-- Ids removed by `DELETE FROM folders WHERE id = ?` under
`ON DELETE CASCADE` (`fs.length` iterations saturate the closure). -/
def cascadeIds (fs : List Folder) (root : Nat) : Finset Nat :=
  deleteSet fs root fs.length

/-- Folder rows surviving the cascading delete of `root`. -/
def cascadeDelete (fs : List Folder) (root : Nat) : List Folder :=
  fs.filter (fun f => decide (f.id ∉ cascadeIds fs root))

/-- Embedding of `DELETE /folders/:folderId`: 404 when absent, 403 unless the
requester created the folder, otherwise the row is deleted and SQLite
cascades the delete to all descendant folder rows.  File rows have no foreign
key to `folders`, so they are untouched. -/
def deleteFolder (s : Catalog) (folderId userId : Nat) : Catalog × Except Err Unit :=
  match s.folders.find? (fun f : Folder => f.id == folderId) with
  | none => (s, .error .notFound)
  | some folder =>
    if folder.createdBy ≠ userId then (s, .error .permissionDenied)
    else ({ s with folders := cascadeDelete s.folders folderId }, .ok ())

/-- Parent-chain witness: `IsChain fs a cs d` states that the folder rows
`cs` form a consecutive child chain from `a` down to the id `d`. -/
def IsChain (fs : List Folder) : Nat → List Folder → Nat → Prop
  | a, [], d => d = a
  | a, f :: rest, d => f ∈ fs ∧ f.parentFolderId = some a ∧ IsChain fs f.id rest d

/-- Transitive descendant relation on folder ids induced by
`parent_folder_id`. -/
def IsDescendant (fs : List Folder) (a d : Nat) : Prop :=
  ∃ cs, cs ≠ [] ∧ IsChain fs a cs d

/-- No two sibling folder rows share a name: the application-level invariant
behind the pre-insert duplicate check (and, for non-null parents, the
`UNIQUE(name, parent_folder_id)` constraint). -/
def SiblingNamesUnique (fs : List Folder) : Prop :=
  List.Pairwise (fun f g => f.parentFolderId = g.parentFolderId → f.name ≠ g.name) fs

instance (fs : List Folder) : Decidable (SiblingNamesUnique fs) :=
  inferInstanceAs (Decidable (List.Pairwise _ fs))

/-- Foreign-key invariant of `folders.parent_folder_id REFERENCES
folders(id)`: every non-null parent reference resolves to a row. -/
def parentRefsOk (fs : List Folder) : Bool :=
  fs.all (fun f =>
    match f.parentFolderId with
    | some p => fs.any (fun g => g.id == p)
    | none => true)

/-! ## File routes (`src/backend/src/routes/files.ts`, given as
`src/unnamed/part_002`) -/

/-- Multer upload record (`req.file`): generated storage name, original
client name, absolute path written under the upload directory, byte size and
declared MIME type. -/
structure Upload where
  filename : String
  originalname : String
  path : String
  size : Nat
  mimetype : String
  deriving DecidableEq, Repr

/-- Insertion loop of `POST /files/upload`: one `files` row per uploaded
file, `current_version` left at its default of 1. -/
def insertFiles (s : Catalog) (ups : List Upload) (folderId : Option Nat)
    (userId now : Nat) : Catalog × List Nat :=
  match ups with
  | [] => (s, [])
  | up :: rest =>
    let newFile : FileRec :=
      ⟨s.nextFileId, up.filename, sanitizeFilename up.originalname, up.path,
       up.size, up.mimetype, folderId, userId, now, 1⟩
    let s₁ := { s with files := s.files ++ [newFile], nextFileId := s.nextFileId + 1 }
    let rest₁ := insertFiles s₁ rest folderId userId now
    (rest₁.1, s.nextFileId :: rest₁.2)

/-- Embedding of `POST /files/upload`: reject an empty upload list, 404 on a
missing (truthy) target folder, then insert one row per file and return the
new ids. -/
def uploadFiles (s : Catalog) (ups : List Upload) (folderIdRaw : Option Nat)
    (userId now : Nat) : Catalog × Except Err (List Nat) :=
  if ups.isEmpty then (s, .error .invalidInput)
  else
    let folderId := jsTruthyId folderIdRaw
    let folderMissing : Bool :=
      match folderId with
      | some fid => (s.folders.find? (fun f : Folder => f.id == fid)).isNone
      | none => false
    if folderMissing then (s, .error .notFound)
    else
      let r := insertFiles s ups folderId userId now
      (r.1, .ok r.2)

/-- Embedding of `PATCH /files/move/:id`: 404 on a missing file, 403 unless
the requester is the uploader, 404 on a missing (truthy) target folder, else
update `folder_id` only. -/
def moveFile (s : Catalog) (fileId : Nat) (folderIdRaw : Option Nat)
    (userId : Nat) : Catalog × Except Err Unit :=
  match s.files.find? (fun f : FileRec => f.id == fileId) with
  | none => (s, .error .notFound)
  | some file =>
    if file.uploadedBy ≠ userId then (s, .error .permissionDenied)
    else
      let targetFolderId := jsTruthyId folderIdRaw
      let folderMissing : Bool :=
        match targetFolderId with
        | some fid => (s.folders.find? (fun f : Folder => f.id == fid)).isNone
        | none => false
      if folderMissing then (s, .error .notFound)
      else
        let files' := s.files.map
          (fun f => if f.id == fileId then { f with folderId := targetFolderId } else f)
        ({ s with files := files' }, .ok ())

/-- Response of `GET /files/stats`. -/
structure Stats where
  totalStorage : Nat
  filesTotal : Nat
  versionsTotal : Nat
  fileCount : Nat
  deriving DecidableEq, Repr

/-- Embedding of `GET /files/stats`: `SUM(file_size)` over `files` and over
`file_versions` (null coalesced to 0), their sum, and `COUNT(*)` over
`files`. -/
def getStats (s : Catalog) : Stats :=
  let filesTotal := jsor0 (sqlSum (s.files.map (fun f : FileRec => f.fileSize)))
  let versionsTotal := jsor0 (sqlSum (s.versions.map (fun v : FileVersion => v.fileSize)))
  ⟨filesTotal + versionsTotal, filesTotal, versionsTotal, s.files.length⟩

/-- On-disk state seen by the download routes: the process working directory
(absolute) and the set of existing files, stored as resolved absolute
paths. -/
structure Disk where
  cwd : String
  existing : List String
  deriving DecidableEq, Repr

/-- Model of `fs.existsSync(p)`: the OS resolves `p` against the working
directory. -/
def existsSync (d : Disk) (p : String) : Bool :=
  d.existing.contains (resolvePath d.cwd p)

/-- The configured storage root `config.uploadDir = path.join(cwd, 'uploads')`. -/
def uploadDirOf (d : Disk) : String :=
  d.cwd ++ "/uploads"

/-- Embedding of `GET /files/download/:id`: 404 on a missing row or missing
disk file, then the guard `path.resolve(filePath).startsWith(uploadDir)`; on
success the handler streams the on-disk object at the resolved path, which
the model returns. -/
def downloadFile (d : Disk) (s : Catalog) (fileId : Nat) : Except Err String :=
  match s.files.find? (fun f : FileRec => f.id == fileId) with
  | none => .error .notFound
  | some file =>
    let filePath := file.filePath
    if !(existsSync d filePath) then .error .notFoundOnDisk
    else
      let resolvedPath := resolvePath d.cwd filePath
      let uploadDir := resolvePath d.cwd (uploadDirOf d)
      if !(startsWithChars resolvedPath.data uploadDir.data) then .error .accessDenied
      else .ok resolvedPath

/-! ## Version routes (`src/backend/src/routes/versions.ts`) -/

/-- Embedding of `POST /versions/upload/:fileId`: 404 on a missing file, then
`nextVersion = Math.max(MAX(version_number) || current_version,
current_version) + 1` (both `||` falsy on null and 0), insert the
`file_versions` row and advance `files.current_version`.  A violation of
`UNIQUE(file_id, version_number)` would throw and surface as a 500. -/
def addVersion (s : Catalog) (fileId : Nat) (up : Upload) (userId now : Nat) :
    Catalog × Except Err Nat :=
  match s.files.find? (fun f : FileRec => f.id == fileId) with
  | none => (s, .error .notFound)
  | some _ =>
    let maxRow := sqlMax ((s.versions.filter (fun v : FileVersion => v.fileId == fileId)).map
      (fun v : FileVersion => v.versionNumber))
    let currentFile := s.files.find? (fun f : FileRec => f.id == fileId)
    let currentVersion := jsor0 (currentFile.map (fun f : FileRec => f.currentVersion))
    let maxVersionNum := jsor maxRow currentVersion
    let nextVersion := max maxVersionNum currentVersion + 1
    if s.versions.any (fun v : FileVersion => v.fileId == fileId && v.versionNumber == nextVersion) then
      (s, .error .internalError)
    else
      let newVersion : FileVersion :=
        ⟨s.nextVersionId, fileId, nextVersion, up.path, up.size, userId, now⟩
      let files' := s.files.map
        (fun f => if f.id == fileId then { f with currentVersion := nextVersion } else f)
      ({ s with versions := s.versions ++ [newVersion], files := files',
                nextVersionId := s.nextVersionId + 1 },
       .ok nextVersion)

/-- Sequential iteration of `addVersion` on one file, collecting the returned
version numbers; each call carries its own upload record and timestamp. -/
def addVersionTimes (s : Catalog) (fileId userId : Nat) :
    List (Upload × Nat) → Catalog × List (Except Err Nat)
  | [] => (s, [])
  | (up, now) :: rest =>
    let r := addVersion s fileId up userId now
    let r₁ := addVersionTimes r.1 fileId userId rest
    (r₁.1, r.2 :: r₁.2)

/-- Version entry returned by `GET /versions/:fileId`. -/
structure VersionView where
  id : Nat
  versionNumber : Nat
  fileSize : Nat
  uploadedAt : Nat
  uploadedBy : String
  isCurrent : Bool
  deriving DecidableEq, Repr

/-- Response of `GET /versions/:fileId`. -/
structure VersionListing where
  fileId : Nat
  filename : String
  currentVersion : Nat
  versions : List VersionView
  deriving DecidableEq, Repr

/-- View row built by the version-listing route: the joined `users` row
supplies the display name and `isCurrent` compares against
`files.current_version`. -/
def versionViewOf (cv : Nat) (u : User) (v : FileVersion) : VersionView :=
  ⟨v.id, v.versionNumber, v.fileSize, v.uploadedAt, u.username,
   v.versionNumber == cv⟩

/-- Order on version entries used by `ORDER BY v.version_number DESC`. -/
def verDesc (a b : VersionView) : Prop :=
  b.versionNumber ≤ a.versionNumber

instance : DecidableRel verDesc :=
  fun a b => Nat.decLe b.versionNumber a.versionNumber

instance : IsTotal VersionView verDesc :=
  ⟨fun a b => Nat.le_total b.versionNumber a.versionNumber⟩

instance : IsTrans VersionView verDesc :=
  ⟨fun _ _ _ h₁ h₂ => Nat.le_trans h₂ h₁⟩

/-- Embedding of `GET /versions/:fileId`: 404 on a missing file, otherwise the
file's version rows joined against `users`, ordered by version number
descending, each flagged `isCurrent`. -/
def listVersions (s : Catalog) (fileId : Nat) : Except Err VersionListing :=
  match s.files.find? (fun f : FileRec => f.id == fileId) with
  | none => .error .notFound
  | some file =>
    let rows := s.versions.filter (fun v : FileVersion => v.fileId == fileId)
    let joined := rows.filterMap
      (fun v : FileVersion => (s.users.find? (fun u : User => u.id == v.uploadedBy)).map
        (fun u : User => versionViewOf file.currentVersion u v))
    .ok ⟨file.id, file.originalFilename, file.currentVersion,
         List.insertionSort verDesc joined⟩

/-- Embedding of `POST /versions/restore/:fileId/:versionNumber`: 404 when the
file or that exact `file_versions` row is absent, otherwise a single
`UPDATE files SET current_version = ?`.  The handler performs no filesystem
calls: it takes and produces only catalog state. -/
def restoreVersion (s : Catalog) (fileId versionNumber : Nat) :
    Catalog × Except Err Nat :=
  match s.files.find? (fun f : FileRec => f.id == fileId) with
  | none => (s, .error .notFound)
  | some _ =>
    match s.versions.find?
        (fun v : FileVersion => v.fileId == fileId && v.versionNumber == versionNumber) with
    | none => (s, .error .notFound)
    | some _ =>
      let files' := s.files.map
        (fun f => if f.id == fileId then { f with currentVersion := versionNumber } else f)
      ({ s with files := files' }, .ok versionNumber)

/-- Embedding of `GET /versions/download/:fileId/:versionNumber`: 404 on a
missing file row, version row or disk file, then the same
`startsWith(uploadDir)` guard as the file download. -/
def downloadVersion (d : Disk) (s : Catalog) (fileId versionNumber : Nat) :
    Except Err String :=
  match s.files.find? (fun f : FileRec => f.id == fileId) with
  | none => .error .notFound
  | some _ =>
    match s.versions.find?
        (fun v : FileVersion => v.fileId == fileId && v.versionNumber == versionNumber) with
    | none => .error .notFound
    | some version =>
      let filePath := version.filePath
      if !(existsSync d filePath) then .error .notFoundOnDisk
      else
        let resolvedPath := resolvePath d.cwd filePath
        let uploadDir := resolvePath d.cwd (uploadDirOf d)
        if !(startsWithChars resolvedPath.data uploadDir.data) then .error .accessDenied
        else .ok resolvedPath

/-! ## Concrete sample states

These replay the §8 walkthrough of the spec (folder "Media", file
`clip.mp4`, one added version, a denied and a successful move) and provide
small states for evaluating the handlers on explicit inputs. -/

/-- Two provisioned users. -/
def demoUsers : List User :=
  [⟨1, "alice"⟩, ⟨2, "bob"⟩]

/-- Fresh catalog with only the two users. -/
def emptyCatalog : Catalog :=
  ⟨demoUsers, [], [], [], 1, 1, 1⟩

/-- First upload of `clip.mp4` (2 MB, video/mp4) as stored by multer. -/
def demoClip : Upload :=
  ⟨"clip_1700000000000_ab12cd3.mp4", "clip.mp4",
   "/srv/app/uploads/clip_1700000000000_ab12cd3.mp4", 2097152, "video/mp4"⟩

/-- Second upload of `clip.mp4` (3 MB), used as the added version. -/
def demoClipV2 : Upload :=
  ⟨"clip_1700000000500_zz99yy1.mp4", "clip.mp4",
   "/srv/app/uploads/clip_1700000000500_zz99yy1.mp4", 3145728, "video/mp4"⟩

/-- State after user 1 creates the root folder "Media" (id 1). -/
def scenarioFolder : Catalog :=
  (createFolder emptyCatalog "Media" none 1 100).1

/-- State after user 1 uploads `clip.mp4` into folder 1 (file id 1,
`currentVersion = 1`, no version rows). -/
def scenarioUploaded : Catalog :=
  (uploadFiles scenarioFolder [demoClip] (some 1) 1 101).1

/-- State after user 1 adds a version (`versionNumber = 2`). -/
def scenarioAdded : Catalog :=
  (addVersion scenarioUploaded 1 demoClipV2 1 102).1

/-- State after user 2's move attempt (denied, unchanged). -/
def scenarioMovedDenied : Catalog :=
  (moveFile scenarioAdded 1 none 2).1

/-- State after user 1 moves the file to the root. -/
def scenarioMoved : Catalog :=
  (moveFile scenarioMovedDenied 1 none 1).1

/-- The `files` row of the scenario file right after the first upload. -/
def scenarioFileRowV1 : FileRec :=
  ⟨1, "clip_1700000000000_ab12cd3.mp4", "clip.mp4",
   "/srv/app/uploads/clip_1700000000000_ab12cd3.mp4", 2097152, "video/mp4",
   some 1, 1, 101, 1⟩

/-- The `files` row of the scenario file after the added version. -/
def scenarioFileRow : FileRec :=
  ⟨1, "clip_1700000000000_ab12cd3.mp4", "clip.mp4",
   "/srv/app/uploads/clip_1700000000000_ab12cd3.mp4", 2097152, "video/mp4",
   some 1, 1, 101, 2⟩

/-- Three-level folder tree: 1 ← 2 ← 3, with folder 3 created by user 2. -/
def demoTree : List Folder :=
  [⟨1, "top", none, 1, 10⟩, ⟨2, "mid", some 1, 1, 11⟩, ⟨3, "leaf", some 2, 2, 12⟩]

/-- Catalog holding the three-level tree. -/
def demoTreeCatalog : Catalog :=
  ⟨demoUsers, demoTree, [], [], 4, 1, 1⟩

/-- Disk holding a file in a sibling directory of the storage root whose name
extends the root's name as a string. -/
def evilDisk : Disk :=
  ⟨"/srv/app", ["/srv/app/uploads_evil/secret.bin"]⟩

/-- Catalog row whose stored `file_path` points into that sibling
directory, together with a version row sharing the path. -/
def evilCatalog : Catalog :=
  ⟨demoUsers, [],
   [⟨1, "secret.bin", "secret.bin", "/srv/app/uploads_evil/secret.bin", 5,
     "image/png", none, 1, 50, 2⟩],
   [⟨1, 1, 2, "/srv/app/uploads_evil/secret.bin", 5, 1, 51⟩], 1, 2, 2⟩

/-- Disk for the `../../etc/passwd` traversal example. -/
def travDisk : Disk :=
  ⟨"/srv/app", ["/etc/passwd"]⟩

/-- Catalog row whose stored `file_path` is a relative traversal key. -/
def travCatalog : Catalog :=
  ⟨demoUsers, [],
   [⟨1, "x", "x", "../../etc/passwd", 5, "image/png", none, 1, 50, 1⟩],
   [], 1, 2, 1⟩

end FileServer

namespace FileServer

/-! ## Helper lemmas -/

/-- Unfolding lemma: `x || 0` on a null value. -/
theorem jsor0_none : jsor0 none = 0 := rfl

/-- Unfolding lemma: `x || d` on a present nonzero value. -/
theorem jsor_some_of_ne (v d : Nat) (h : v ≠ 0) : jsor (some v) d = v := by
  simp [jsor, h]

/-- Unfolding lemma: `x || 0` on a present value. -/
theorem jsor0_some (v : Nat) : jsor0 (some v) = v := by
  by_cases h : v = 0 <;> simp [jsor0, jsor, h]

/-! ## C8: storage statistics -/

/-- C8.  `GET /files/stats` returns `filesTotal` equal to the sum of
`files.file_size`, `versionsTotal` equal to the sum of
`file_versions.file_size`, `totalStorage` equal to the sum of the two, and
`fileCount` equal to the number of `files` rows, for every catalog state. -/
theorem getStats_sums (s : Catalog) :
    getStats s =
      ⟨(s.files.map (fun f : FileRec => f.fileSize)).sum +
         (s.versions.map (fun v : FileVersion => v.fileSize)).sum,
       (s.files.map (fun f : FileRec => f.fileSize)).sum,
       (s.versions.map (fun v : FileVersion => v.fileSize)).sum,
       s.files.length⟩ := by
  unfold getStats
  rcases hf : s.files.map (fun f : FileRec => f.fileSize) with _ | ⟨x, xs⟩ <;>
    rcases hv : s.versions.map (fun v : FileVersion => v.fileSize) with _ | ⟨y, ys⟩ <;>
      simp [sqlSum, hf, hv, jsor0_none, jsor0_some]

/-! ## C4: the download path guard -/

/-- C4.  Evaluation of the download handlers on explicit states.  The guard
`path.resolve(filePath).startsWith(uploadDir)` is a plain string-prefix
test: a stored path inside the sibling directory `/srv/app/uploads_evil`
passes the guard and is served although it lies outside the storage root
`/srv/app/uploads`, on both the file and the version download route; the
`../../etc/passwd`-style stored key, in contrast, is rejected with the 403
`accessDenied` outcome. -/
theorem download_guard_prefix_bypass :
    downloadFile evilDisk evilCatalog 1 = .ok "/srv/app/uploads_evil/secret.bin" ∧
    downloadVersion evilDisk evilCatalog 1 2 = .ok "/srv/app/uploads_evil/secret.bin" ∧
    ¬ withinRoot (resolvePath "/srv/app" (uploadDirOf evilDisk))
        "/srv/app/uploads_evil/secret.bin" ∧
    resolvePath "/srv/app" (uploadDirOf evilDisk) = "/srv/app/uploads" ∧
    downloadFile travDisk travCatalog 1 = .error .accessDenied ∧
    resolvePath "/srv/app" "../../etc/passwd" = "/etc/passwd" := by
  decide

end FileServer

namespace FileServer

/-! ## C5: restoring the implicit first version -/

/-- C5 counterexample.  In the §8 scenario state (first upload, then one
`addVersion` that returned version number 2), `restoreVersion(fileId, 1)`
does not succeed: version 1 exists only implicitly on the `files` row, no
`file_versions` row matches, and the handler answers 404 leaving
`currentVersion` at 2. -/
theorem restore_implicit_first_version_fails :
    (addVersion scenarioUploaded 1 demoClipV2 1 102).2 = .ok 2 ∧
    (restoreVersion scenarioAdded 1 1).2 = .error .notFound ∧
    (restoreVersion scenarioAdded 1 1).1.files.map (fun f : FileRec => f.currentVersion) = [2] := by
  decide

/-- C5 amended.  Replaying §8: the non-owner move is denied, the owner moves
the file to the root, and then `restoreVersion(fileId, 1)` fails with 404
(no `file_versions` row for the implicit version 1), the state is unchanged,
and `listVersions` shows the single explicit entry, version 2, flagged
current. -/
theorem restore_after_single_addVersion :
    (moveFile scenarioAdded 1 none 2).2 = .error .permissionDenied ∧
    (moveFile scenarioMovedDenied 1 none 1).2 = .ok () ∧
    (restoreVersion scenarioMoved 1 1).2 = .error .notFound ∧
    (restoreVersion scenarioMoved 1 1).1 = scenarioMoved ∧
    listVersions scenarioMoved 1 =
      .ok ⟨1, "clip.mp4", 2, [⟨1, 2, 3145728, 102, "alice", true⟩]⟩ := by
  decide

/-! ## C10: listing a file that has no explicit version rows -/

/-- C10.  For a file row present in the catalog with no `file_versions`
rows (the situation after a first upload with no `addVersion` call),
`GET /versions/:fileId` succeeds with an empty `versions` array, so no
returned entry is flagged current. -/
theorem listVersions_no_explicit_rows (s : Catalog) (fid : Nat) (f : FileRec)
    (hfind : s.files.find? (fun g : FileRec => g.id == fid) = some f)
    (hrows : s.versions.filter (fun v : FileVersion => v.fileId == fid) = []) :
    listVersions s fid = .ok ⟨f.id, f.originalFilename, f.currentVersion, []⟩ ∧
    ∀ e ∈ (⟨f.id, f.originalFilename, f.currentVersion, []⟩ : VersionListing).versions,
      e.isCurrent = false := by
  constructor
  · simp [listVersions, hfind, hrows]
  · intro e he
    simp at he

/-- Witness for C10 at the state right after the scenario's first upload. -/
theorem listVersions_no_explicit_rows_witness :
    scenarioUploaded.files.find? (fun g : FileRec => g.id == 1) = some scenarioFileRowV1 ∧
    scenarioUploaded.versions.filter (fun v : FileVersion => v.fileId == 1) = [] ∧
    (listVersions scenarioUploaded 1 =
        .ok ⟨scenarioFileRowV1.id, scenarioFileRowV1.originalFilename,
             scenarioFileRowV1.currentVersion, []⟩ ∧
      ∀ e ∈ (⟨scenarioFileRowV1.id, scenarioFileRowV1.originalFilename,
              scenarioFileRowV1.currentVersion, []⟩ : VersionListing).versions,
        e.isCurrent = false) :=
  ⟨by decide, by decide,
   listVersions_no_explicit_rows scenarioUploaded 1 scenarioFileRowV1
     (by decide) (by decide)⟩

/-! ## C3: version restore is metadata-only -/

/-- C3.  `POST /versions/restore`: a missing file or a missing
`file_versions` row yields 404 with the catalog unchanged; when both exist
the handler rewrites only `files.current_version` for that file: the
returned state differs from `s` exactly by that one `map`, the `users`,
`folders` and `file_versions` tables are untouched, and the update function
preserves every `files` column except `current_version` (and touches no
other row).  No filesystem state is involved: the handler consumes and
produces catalog state only. -/
theorem restoreVersion_cases (s : Catalog) (fid v : Nat) :
    (s.files.find? (fun f : FileRec => f.id == fid) = none →
      restoreVersion s fid v = (s, .error .notFound)) ∧
    ((s.files.find? (fun f : FileRec => f.id == fid)).isSome = true →
      s.versions.find? (fun w : FileVersion => w.fileId == fid && w.versionNumber == v) = none →
      restoreVersion s fid v = (s, .error .notFound)) ∧
    ((s.files.find? (fun f : FileRec => f.id == fid)).isSome = true →
      (s.versions.find? (fun w : FileVersion => w.fileId == fid && w.versionNumber == v)).isSome = true →
      (restoreVersion s fid v = ({ s with files := s.files.map (fun f => if f.id == fid then { f with currentVersion := v } else f) }, .ok v) ∧
       (restoreVersion s fid v).1.versions = s.versions ∧
       (restoreVersion s fid v).1.folders = s.folders ∧
       (restoreVersion s fid v).1.users = s.users ∧
       ∀ f : FileRec,
         (if f.id == fid then { f with currentVersion := v } else f).id = f.id ∧
         (if f.id == fid then { f with currentVersion := v } else f).filename = f.filename ∧
         (if f.id == fid then { f with currentVersion := v } else f).originalFilename = f.originalFilename ∧
         (if f.id == fid then { f with currentVersion := v } else f).filePath = f.filePath ∧
         (if f.id == fid then { f with currentVersion := v } else f).fileSize = f.fileSize ∧
         (if f.id == fid then { f with currentVersion := v } else f).mimeType = f.mimeType ∧
         (if f.id == fid then { f with currentVersion := v } else f).folderId = f.folderId ∧
         (if f.id == fid then { f with currentVersion := v } else f).uploadedBy = f.uploadedBy ∧
         (if f.id == fid then { f with currentVersion := v } else f).uploadedAt = f.uploadedAt ∧
         ((f.id == fid) = false →
           (if f.id == fid then { f with currentVersion := v } else f) = f) ∧
         ((f.id == fid) = true →
           (if f.id == fid then { f with currentVersion := v } else f).currentVersion = v))) := by
  refine ⟨?_, ?_, ?_⟩
  · intro h1
    simp [restoreVersion, h1]
  · intro h1 h2
    rcases Option.isSome_iff_exists.mp h1 with ⟨f0, hf0⟩
    simp [restoreVersion, hf0, h2]
  · intro h1 h2
    rcases Option.isSome_iff_exists.mp h1 with ⟨f0, hf0⟩
    rcases Option.isSome_iff_exists.mp h2 with ⟨w0, hw0⟩
    refine ⟨by simp [restoreVersion, hf0, hw0], ?_, ?_, ?_, ?_⟩
    · simp [restoreVersion, hf0, hw0]
    · simp [restoreVersion, hf0, hw0]
    · simp [restoreVersion, hf0, hw0]
    · intro f
      by_cases hid : (f.id == fid) = true <;> simp [hid]

/-- Witness for C3 in the state after the scenario's added version,
restoring the explicit version 2. -/
theorem restoreVersion_cases_witness :
    (scenarioAdded.files.find? (fun f : FileRec => f.id == 1)).isSome = true ∧
    (scenarioAdded.versions.find? (fun w : FileVersion => w.fileId == 1 && w.versionNumber == 2)).isSome = true ∧
    restoreVersion scenarioAdded 1 2 = ({ scenarioAdded with files := scenarioAdded.files.map (fun f => if f.id == 1 then { f with currentVersion := 2 } else f) }, .ok 2) :=
  ⟨by decide, by decide,
   ((restoreVersion_cases scenarioAdded 1 2).2.2 (by decide) (by decide)).1⟩

end FileServer

namespace FileServer

/-! ## C2: duplicate sibling names -/

/-- Characterization of the SQL null-aware comparison used in the sibling
query. -/
theorem sqlNullEq_eq_true_iff (a b : Option Nat) : sqlNullEq a b = true ↔ a = b := by
  cases a <;> cases b <;> simp [sqlNullEq]

/-- Helper: a string whose character list is empty is the empty string. -/
theorem eq_empty_of_data_eq_nil (s : String) (h : s.data = []) : s = "" := by
  cases s
  simp_all

/-- C2.  `POST /folders/create` under the catalog invariants (valid parent
references, nonempty stored names, unique sibling names): if some existing
folder under the requested parent (or at root when the parent is absent)
already carries the requested sanitized name, the call answers `conflict` and
the state is unchanged; and any successful call preserves uniqueness of
sibling names, so no two children of one parent ever share a sanitized
name. -/
theorem createFolder_sibling_conflict (s : Catalog) (name : String)
    (parentRaw : Option Nat) (uid now : Nat)
    (hfk : parentRefsOk s.folders = true)
    (hne : ∀ f ∈ s.folders, f.name ≠ "")
    (hpw : SiblingNamesUnique s.folders) :
    (∀ dup ∈ s.folders, dup.name = sanitizeFilename (jsTrim name) →
       dup.parentFolderId = jsTruthyId parentRaw →
       createFolder s name parentRaw uid now = (s, .error .conflict)) ∧
    (∀ s' fid, createFolder s name parentRaw uid now = (s', .ok fid) →
       SiblingNamesUnique s'.folders) := by
  constructor
  · intro dup hdup hname hparent
    have hne' := hne dup hdup
    have h1 : ¬ ((jsTrim name).length = 0) := by
      intro h0
      apply hne'
      rw [hname]
      have hdata : (jsTrim name).data = [] := List.length_eq_zero.mp h0
      unfold sanitizeFilename
      rw [hdata]
      rfl
    have h2 : ¬ ((sanitizeFilename (jsTrim name)).length = 0) := by
      intro h0
      exact hne' (hname.trans (eq_empty_of_data_eq_nil _ (List.length_eq_zero.mp h0)))
    have hconf : ∃ y, s.folders.find?
        (fun f : Folder => f.name == sanitizeFilename (jsTrim name) &&
          sqlNullEq f.parentFolderId (jsTruthyId parentRaw)) = some y := by
      apply Option.isSome_iff_exists.mp
      apply List.find?_isSome.mpr
      refine ⟨dup, hdup, ?_⟩
      simp only [Bool.and_eq_true, beq_iff_eq, sqlNullEq_eq_true_iff]
      exact ⟨hname, hparent⟩
    rcases hconf with ⟨y, hy⟩
    cases hp : jsTruthyId parentRaw with
    | none =>
      simp [createFolder, h1, h2, hp, hp ▸ hy]
    | some pid =>
      have hex : ∃ g ∈ s.folders, (fun g : Folder => g.id == pid) g = true := by
        have hall := List.all_eq_true.mp hfk dup hdup
        rw [hparent, hp] at hall
        simpa using List.any_eq_true.mp hall
      rcases Option.isSome_iff_exists.mp (List.find?_isSome.mpr hex) with ⟨g0, hg0⟩
      simp [createFolder, h1, h2, hp, hg0, hp ▸ hy]
  · intro s' fid hok
    simp only [createFolder] at hok
    split_ifs at hok with h1 h2 h3
    · exact absurd (congrArg Prod.snd hok) (by simp)
    · exact absurd (congrArg Prod.snd hok) (by simp)
    · exact absurd (congrArg Prod.snd hok) (by simp)
    · split at hok
      · exact absurd (congrArg Prod.snd hok) (by simp)
      · rename_i hnone
        have hfolders : s'.folders = s.folders ++
            [⟨s.nextFolderId, sanitizeFilename (jsTrim name), jsTruthyId parentRaw, uid, now⟩] := by
          have := congrArg Prod.fst hok
          simp at this
          rw [← this]
        rw [SiblingNamesUnique, hfolders, List.pairwise_append]
        refine ⟨hpw, List.pairwise_singleton _ _, ?_⟩
        intro a ha b hb hpar hnames
        have hb' : b = ⟨s.nextFolderId, sanitizeFilename (jsTrim name), jsTruthyId parentRaw, uid, now⟩ := by
          simpa using hb
        have hnp := List.find?_eq_none.mp hnone a ha
        apply hnp
        subst hb'
        simp only [Bool.and_eq_true, beq_iff_eq, sqlNullEq_eq_true_iff]
        exact ⟨hnames, hpar⟩

/-- Witness for C2: recreating the root folder "Media" as another user
answers `conflict` and leaves the state unchanged. -/
theorem createFolder_sibling_conflict_witness :
    parentRefsOk scenarioFolder.folders = true ∧
    (∀ f ∈ scenarioFolder.folders, f.name ≠ "") ∧
    SiblingNamesUnique scenarioFolder.folders ∧
    createFolder scenarioFolder "Media" none 2 200 = (scenarioFolder, .error .conflict) :=
  ⟨by decide, by decide, by decide,
   (createFolder_sibling_conflict scenarioFolder "Media" none 2 200
       (by decide) (by decide) (by decide)).1
     ⟨1, "Media", none, 1, 100⟩ (by decide) (by decide) (by decide)⟩

end FileServer

namespace FileServer

/-! ## C1: sequential version numbering -/

/-- `MAX` over a column extended by one value. -/
theorem sqlMax_concat (l : List Nat) (a : Nat) :
    sqlMax (l ++ [a]) =
      some (match sqlMax l with
            | none => a
            | some m => max m a) := by
  cases l with
  | nil => rfl
  | cons x r => simp [sqlMax, List.foldl_append]

/-- `MAX` over the version numbers `2 … k+1`. -/
theorem sqlMax_range' (k : Nat) :
    sqlMax (List.range' 2 k) = if k = 0 then none else some (k + 1) := by
  induction k with
  | zero => rfl
  | succ n ih =>
    rw [List.range'_1_concat, sqlMax_concat, ih]
    cases n with
    | zero => simp
    | succ m =>
      simp only [Nat.succ_ne_zero, if_false, Option.some.injEq]
      rw [max_eq_right (by omega : m + 1 + 1 ≤ 2 + (m + 1))]
      omega

/-- Rewriting `current_version` of one file commutes with the lookup by
id. -/
theorem find?_map_setCurrent (files : List FileRec) (fid nv : Nat) :
    (files.map (fun f => if f.id == fid then { f with currentVersion := nv } else f)).find?
        (fun g : FileRec => g.id == fid) =
      (files.find? (fun g : FileRec => g.id == fid)).map
        (fun f => { f with currentVersion := nv }) := by
  induction files with
  | nil => rfl
  | cons f rest ih =>
    by_cases h : f.id = fid
    · simp [List.find?_cons, h]
    · simp only [beq_iff_eq] at ih
      simp [-List.find?_map, List.find?_cons, h, ih]

/-- Single step of C1: on a file whose `current_version` is `d + 1` and whose
explicit version numbers are exactly `2 … d+1`, `addVersion` returns
`d + 2 = max(existing ∪ {currentVersion}) + 1`, inserts the row and advances
`current_version`. -/
theorem addVersion_step (s : Catalog) (fid uid now : Nat) (up : Upload)
    (f : FileRec) (d : Nat)
    (hfind : s.files.find? (fun g : FileRec => g.id == fid) = some f)
    (hcv : f.currentVersion = d + 1)
    (hrows : (s.versions.filter (fun v : FileVersion => v.fileId == fid)).map
        (fun v : FileVersion => v.versionNumber) = List.range' 2 d) :
    addVersion s fid up uid now =
      ({ s with
          versions := s.versions ++ [⟨s.nextVersionId, fid, d + 2, up.path, up.size, uid, now⟩],
          files := s.files.map (fun g => if g.id == fid then { g with currentVersion := d + 2 } else g),
          nextVersionId := s.nextVersionId + 1 },
       .ok (d + 2)) := by
  have hmax : sqlMax ((s.versions.filter (fun v : FileVersion => v.fileId == fid)).map
      (fun v : FileVersion => v.versionNumber)) = if d = 0 then none else some (d + 1) := by
    rw [hrows, sqlMax_range']
  have hany : (s.versions.any
      (fun v : FileVersion => v.fileId == fid && v.versionNumber == d + 2)) = false := by
    rw [List.any_eq_false]
    intro v hv hpred
    simp only [Bool.and_eq_true, beq_iff_eq] at hpred
    have hvf : v ∈ s.versions.filter (fun v : FileVersion => v.fileId == fid) :=
      List.mem_filter.mpr ⟨hv, by simp [hpred.1]⟩
    have hvn : v.versionNumber ∈ List.range' 2 d := by
      rw [← hrows]
      exact List.mem_map.mpr ⟨v, hvf, rfl⟩
    rw [hpred.2] at hvn
    have := List.mem_range'_1.mp hvn
    omega
  cases d with
  | zero =>
    simp [addVersion, hfind, hmax, hany, jsor, jsor0, hcv]
  | succ n =>
    simp [addVersion, hfind, hmax, hany, jsor, jsor0, hcv]

end FileServer

namespace FileServer

/-- Iterated invariant for C1: starting from `current_version = d + 1` and
explicit version numbers `2 … d+1`, a run of `addVersion` calls returns
exactly `d+2, d+3, …` and maintains the invariant. -/
theorem addVersionTimes_inv (fid uid : Nat) (ups : List (Upload × Nat)) :
    ∀ (s : Catalog) (f : FileRec) (d : Nat),
      s.files.find? (fun g : FileRec => g.id == fid) = some f →
      f.currentVersion = d + 1 →
      (s.versions.filter (fun v : FileVersion => v.fileId == fid)).map
          (fun v : FileVersion => v.versionNumber) = List.range' 2 d →
      (addVersionTimes s fid uid ups).2 = (List.range' (d + 2) ups.length).map Except.ok ∧
      ((addVersionTimes s fid uid ups).1.files.find? (fun g : FileRec => g.id == fid)).map
          (fun g : FileRec => g.currentVersion) = some (d + 1 + ups.length) ∧
      ((addVersionTimes s fid uid ups).1.versions.filter
          (fun v : FileVersion => v.fileId == fid)).map
          (fun v : FileVersion => v.versionNumber) = List.range' 2 (d + ups.length) := by
  induction ups with
  | nil =>
    intro s f d hfind hcv hrows
    refine ⟨rfl, ?_, by simpa using hrows⟩
    simp [addVersionTimes, hfind, hcv]
  | cons p rest ih =>
    intro s f d hfind hcv hrows
    obtain ⟨up, now⟩ := p
    have hstep := addVersion_step s fid uid now up f d hfind hcv hrows
    simp only [addVersionTimes, hstep]
    set s₂ : Catalog :=
      { s with
          versions := s.versions ++ [⟨s.nextVersionId, fid, d + 2, up.path, up.size, uid, now⟩],
          files := s.files.map (fun g => if g.id == fid then { g with currentVersion := d + 2 } else g),
          nextVersionId := s.nextVersionId + 1 } with hs₂
    have hfind₂ : s₂.files.find? (fun g : FileRec => g.id == fid) =
        some { f with currentVersion := d + 2 } := by
      rw [hs₂]
      show (s.files.map (fun g => if g.id == fid then { g with currentVersion := d + 2 } else g)).find?
          (fun g : FileRec => g.id == fid) = some { f with currentVersion := d + 2 }
      rw [find?_map_setCurrent, hfind]
      rfl
    have hrows₂ : (s₂.versions.filter (fun v : FileVersion => v.fileId == fid)).map
        (fun v : FileVersion => v.versionNumber) = List.range' 2 (d + 1) := by
      rw [hs₂]
      show ((s.versions ++ [(⟨s.nextVersionId, fid, d + 2, up.path, up.size, uid, now⟩ : FileVersion)]).filter
          (fun v : FileVersion => v.fileId == fid)).map
          (fun v : FileVersion => v.versionNumber) = List.range' 2 (d + 1)
      rw [List.filter_append, List.map_append, hrows, List.range'_1_concat]
      simp [Nat.add_comm 2 d]
    have hrest := ih s₂ { f with currentVersion := d + 2 } (d + 1) hfind₂ rfl hrows₂
    refine ⟨?_, ?_, ?_⟩
    · rw [List.length_cons, List.range'_succ, List.map_cons]
      exact congrArg₂ List.cons rfl hrest.1
    · rw [List.length_cons]
      have := hrest.2.1
      rw [show d + 1 + 1 + rest.length = d + 1 + (rest.length + 1) by omega] at this
      exact this
    · rw [List.length_cons]
      have := hrest.2.2
      rw [show d + 1 + rest.length = d + (rest.length + 1) by omega] at this
      exact this

/-- C1.  On a file in the first-upload state (`current_version = 1`, no
explicit `file_versions` rows), a sequential run of N `addVersion` calls
returns exactly the version numbers `2 … N+1` in order (each being
`max(existing version numbers ∪ {current_version}) + 1` at its step, by
`addVersion_step`), with no duplicates; afterwards `current_version = N + 1`
and the file's `file_versions` rows carry exactly the numbers `2 … N+1`. -/
theorem addVersion_sequential (s : Catalog) (fid uid : Nat) (f : FileRec)
    (ups : List (Upload × Nat))
    (hfind : s.files.find? (fun g : FileRec => g.id == fid) = some f)
    (hcv : f.currentVersion = 1)
    (hrows : s.versions.filter (fun v : FileVersion => v.fileId == fid) = []) :
    (addVersionTimes s fid uid ups).2 = (List.range' 2 ups.length).map Except.ok ∧
    (List.range' 2 ups.length).Nodup ∧
    ((addVersionTimes s fid uid ups).1.files.find? (fun g : FileRec => g.id == fid)).map
        (fun g : FileRec => g.currentVersion) = some (ups.length + 1) ∧
    ((addVersionTimes s fid uid ups).1.versions.filter
        (fun v : FileVersion => v.fileId == fid)).map
        (fun v : FileVersion => v.versionNumber) = List.range' 2 ups.length := by
  have h := addVersionTimes_inv fid uid ups s f 0 hfind hcv (by rw [hrows]; rfl)
  refine ⟨by simpa using h.1, List.nodup_range' 2 ups.length, ?_, by simpa using h.2.2⟩
  have := h.2.1
  rw [show 0 + 1 + ups.length = ups.length + 1 by omega] at this
  exact this

/-- Witness for C1: two sequential version uploads on the scenario file
return version numbers 2 and 3 and leave `current_version = 3`. -/
theorem addVersion_sequential_witness :
    scenarioUploaded.files.find? (fun g : FileRec => g.id == 1) = some scenarioFileRowV1 ∧
    scenarioFileRowV1.currentVersion = 1 ∧
    scenarioUploaded.versions.filter (fun v : FileVersion => v.fileId == 1) = [] ∧
    ((addVersionTimes scenarioUploaded 1 1 [(demoClipV2, 102), (demoClipV2, 103)]).2 =
        (List.range' 2 2).map Except.ok ∧
      ((addVersionTimes scenarioUploaded 1 1 [(demoClipV2, 102), (demoClipV2, 103)]).1.files.find?
          (fun g : FileRec => g.id == 1)).map (fun g : FileRec => g.currentVersion) = some 3) :=
  ⟨by decide, by decide, by decide,
   (addVersion_sequential scenarioUploaded 1 1 scenarioFileRowV1
       [(demoClipV2, 102), (demoClipV2, 103)] (by decide) (by decide) (by decide)).1,
   (addVersion_sequential scenarioUploaded 1 1 scenarioFileRowV1
       [(demoClipV2, 102), (demoClipV2, 103)] (by decide) (by decide) (by decide)).2.2.1⟩

end FileServer

namespace FileServer

/-! ## C6: version listing order and current flags -/

/-- Projections of the joined version views: when every uploader resolves in
`users` (the `uploaded_by` foreign key), the inner join drops no rows, keeps
each version number, and flags each entry by comparison with the given
current version. -/
theorem joined_views_spec (users : List User) (cv : Nat) (rows : List FileVersion)
    (h : ∀ v ∈ rows, (users.find? (fun u : User => u.id == v.uploadedBy)).isSome = true) :
    ((rows.filterMap (fun v : FileVersion => (users.find? (fun u : User => u.id == v.uploadedBy)).map
        (fun u : User => versionViewOf cv u v))).map (fun e : VersionView => e.versionNumber) =
      rows.map (fun v : FileVersion => v.versionNumber)) ∧
    ∀ e ∈ rows.filterMap (fun v : FileVersion => (users.find? (fun u : User => u.id == v.uploadedBy)).map
        (fun u : User => versionViewOf cv u v)), e.isCurrent = (e.versionNumber == cv) := by
  induction rows with
  | nil => exact ⟨rfl, by simp⟩
  | cons v rest ih =>
    have hv := h v (by simp)
    rcases Option.isSome_iff_exists.mp hv with ⟨u, hu⟩
    have hrest := ih (fun w hw => h w (by simp [hw]))
    constructor
    · simp only [List.filterMap_cons, hu, Option.map_some', List.map_cons]
      exact congrArg₂ List.cons rfl hrest.1
    · intro e he
      simp only [List.filterMap_cons, hu, Option.map_some', List.mem_cons] at he
      rcases he with he | he
      · subst he
        rfl
      · exact hrest.2 e he

/-- Successful version listing: the response versions are the joined rows of
the file, sorted by version number descending, each flagged by comparison
with `files.current_version`. -/
theorem listVersions_ok_spec (s : Catalog) (fid : Nat) (f : FileRec)
    (hfind : s.files.find? (fun g : FileRec => g.id == fid) = some f)
    (hFK : ∀ w ∈ s.versions.filter (fun w : FileVersion => w.fileId == fid),
      (s.users.find? (fun u : User => u.id == w.uploadedBy)).isSome = true) :
    ∃ out, listVersions s fid = .ok out ∧
      out.currentVersion = f.currentVersion ∧
      List.Sorted verDesc out.versions ∧
      (out.versions.map (fun e : VersionView => e.versionNumber)).Perm
        ((s.versions.filter (fun w : FileVersion => w.fileId == fid)).map
          (fun w : FileVersion => w.versionNumber)) ∧
      ∀ e ∈ out.versions, e.isCurrent = (e.versionNumber == f.currentVersion) := by
  have hjoin := joined_views_spec s.users f.currentVersion
    (s.versions.filter (fun w : FileVersion => w.fileId == fid)) hFK
  set joined := (s.versions.filter (fun w : FileVersion => w.fileId == fid)).filterMap
    (fun v : FileVersion => (s.users.find? (fun u : User => u.id == v.uploadedBy)).map
      (fun u : User => versionViewOf f.currentVersion u v)) with hjoined
  refine ⟨⟨f.id, f.originalFilename, f.currentVersion, List.insertionSort verDesc joined⟩,
    ?_, rfl, ?_, ?_, ?_⟩
  · simp [listVersions, hfind, hjoined]
  · exact List.sorted_insertionSort verDesc joined
  · exact ((List.perm_insertionSort verDesc joined).map _).trans (by rw [hjoin.1])
  · intro e he
    exact hjoin.2 e ((List.perm_insertionSort verDesc joined).mem_iff.mp he)

/-- C6.  For an existing file (under the `uploaded_by` foreign key and the
`UNIQUE(file_id, version_number)` invariant), `GET /versions/:fileId` returns
the file's version entries sorted by version number descending with
`isCurrent = (versionNumber == current_version)`; and after a successful
`restoreVersion(fid, v)` for a `v` that has an explicit row, the listing has
exactly one entry flagged current, and that entry is version `v`. -/
theorem listVersions_order_and_restore (s : Catalog) (fid v : Nat) (f : FileRec)
    (hfind : s.files.find? (fun g : FileRec => g.id == fid) = some f)
    (hFK : ∀ w ∈ s.versions.filter (fun w : FileVersion => w.fileId == fid),
      (s.users.find? (fun u : User => u.id == w.uploadedBy)).isSome = true)
    (hnd : ((s.versions.filter (fun w : FileVersion => w.fileId == fid)).map
        (fun w : FileVersion => w.versionNumber)).Nodup)
    (hrow : ∃ w ∈ s.versions, w.fileId = fid ∧ w.versionNumber = v) :
    (∃ out, listVersions s fid = .ok out ∧
      List.Sorted verDesc out.versions ∧
      (out.versions.map (fun e : VersionView => e.versionNumber)).Perm
        ((s.versions.filter (fun w : FileVersion => w.fileId == fid)).map
          (fun w : FileVersion => w.versionNumber)) ∧
      ∀ e ∈ out.versions, e.isCurrent = (e.versionNumber == f.currentVersion)) ∧
    ((restoreVersion s fid v).2 = .ok v ∧
      ∃ out, listVersions (restoreVersion s fid v).1 fid = .ok out ∧
        List.Sorted verDesc out.versions ∧
        out.versions.countP (fun e : VersionView => e.isCurrent) = 1 ∧
        ∀ e ∈ out.versions, e.isCurrent = true → e.versionNumber = v) := by
  rcases hrow with ⟨w, hw, hwf, hwv⟩
  constructor
  · obtain ⟨out, h1, _, h3, h4, h5⟩ := listVersions_ok_spec s fid f hfind hFK
    exact ⟨out, h1, h3, h4, h5⟩
  · rcases Option.isSome_iff_exists.mp
        (List.find?_isSome.mpr ⟨w, hw, by simp [hwf, hwv]⟩ :
          (s.versions.find? (fun x : FileVersion => x.fileId == fid && x.versionNumber == v)).isSome = true)
      with ⟨w0, hw0⟩
    have hrv : restoreVersion s fid v =
        ({ s with files := s.files.map (fun g => if g.id == fid then { g with currentVersion := v } else g) }, .ok v) := by
      simp [restoreVersion, hfind, hw0]
    have hsnd : (restoreVersion s fid v).2 = .ok v := by rw [hrv]
    have hfind' : (restoreVersion s fid v).1.files.find? (fun g : FileRec => g.id == fid) =
        some { f with currentVersion := v } := by
      rw [hrv]
      show (s.files.map (fun g => if g.id == fid then { g with currentVersion := v } else g)).find?
          (fun g : FileRec => g.id == fid) = some { f with currentVersion := v }
      rw [find?_map_setCurrent, hfind]
      rfl
    have hvers' : (restoreVersion s fid v).1.versions = s.versions := by rw [hrv]
    have husers' : (restoreVersion s fid v).1.users = s.users := by rw [hrv]
    obtain ⟨out, hout, hcv', hsort, hperm, hflag⟩ :=
      listVersions_ok_spec (restoreVersion s fid v).1 fid { f with currentVersion := v }
        hfind' (by rw [hvers', husers']; exact hFK)
    rw [hvers'] at hperm
    refine ⟨hsnd, out, hout, hsort, ?_, ?_⟩
    · have hflag' : ∀ e ∈ out.versions, e.isCurrent = (e.versionNumber == v) := hflag
      have h1 : out.versions.countP (fun e : VersionView => e.isCurrent) =
          out.versions.countP (fun e : VersionView => e.versionNumber == v) :=
        List.countP_congr (fun e he => by rw [hflag' e he])
      have h2 : out.versions.countP (fun e : VersionView => e.versionNumber == v) =
          (out.versions.map (fun e : VersionView => e.versionNumber)).countP
            (fun n : Nat => n == v) := by
        rw [List.countP_map]
        rfl
      have h3 := List.Perm.countP_eq (fun n : Nat => n == v) hperm
      have hvmem : v ∈ (s.versions.filter (fun w : FileVersion => w.fileId == fid)).map
          (fun w : FileVersion => w.versionNumber) :=
        List.mem_map.mpr ⟨w, List.mem_filter.mpr ⟨hw, by simp [hwf]⟩, hwv⟩
      have h4 : ((s.versions.filter (fun w : FileVersion => w.fileId == fid)).map
          (fun w : FileVersion => w.versionNumber)).countP (fun n : Nat => n == v) = 1 := by
        rw [← List.count_eq_countP]
        exact List.count_eq_one_of_mem hnd hvmem
      rw [h1, h2, h3, h4]
    · intro e he hcur
      have := hflag e he
      rw [hcur] at this
      have : (e.versionNumber == ({ f with currentVersion := v } : FileRec).currentVersion) = true :=
        this.symm
      simpa using this

/-- Witness for C6 in the state after the scenario's added version,
restoring version 2. -/
theorem listVersions_order_and_restore_witness :
    scenarioAdded.files.find? (fun g : FileRec => g.id == 1) = some scenarioFileRow ∧
    (∀ w ∈ scenarioAdded.versions.filter (fun w : FileVersion => w.fileId == 1),
      (scenarioAdded.users.find? (fun u : User => u.id == w.uploadedBy)).isSome = true) ∧
    ((scenarioAdded.versions.filter (fun w : FileVersion => w.fileId == 1)).map
        (fun w : FileVersion => w.versionNumber)).Nodup ∧
    (∃ w ∈ scenarioAdded.versions, w.fileId = 1 ∧ w.versionNumber = 2) ∧
    ((restoreVersion scenarioAdded 1 2).2 = .ok 2 ∧
      ∃ out, listVersions (restoreVersion scenarioAdded 1 2).1 1 = .ok out ∧
        List.Sorted verDesc out.versions ∧
        out.versions.countP (fun e : VersionView => e.isCurrent) = 1 ∧
        ∀ e ∈ out.versions, e.isCurrent = true → e.versionNumber = 2) :=
  ⟨by decide, by decide, by decide, by decide,
   (listVersions_order_and_restore scenarioAdded 1 2 scenarioFileRow
       (by decide) (by decide) (by decide) (by decide)).2⟩

end FileServer

namespace FileServer

/-! ## C7: cascading folder deletion -/

/-- Chains decompose at an append. -/
theorem isChain_append (fs : List Folder) (d : Nat) (xs ys : List Folder) :
    ∀ a, IsChain fs a (xs ++ ys) d ↔ ∃ b, IsChain fs a xs b ∧ IsChain fs b ys d := by
  induction xs with
  | nil =>
    intro a
    constructor
    · intro h
      exact ⟨a, rfl, h⟩
    · rintro ⟨b, rfl, h⟩
      exact h
  | cons f rest ih =>
    intro a
    constructor
    · rintro ⟨hf, hp, hch⟩
      rcases (ih f.id).mp hch with ⟨b, h1, h2⟩
      exact ⟨b, ⟨hf, hp, h1⟩, h2⟩
    · rintro ⟨b, ⟨hf, hp, h1⟩, h2⟩
      exact ⟨hf, hp, (ih f.id).mpr ⟨b, h1, h2⟩⟩

/-- Every folder on a chain is a row of the table. -/
theorem isChain_subset (fs : List Folder) :
    ∀ (cs : List Folder) (a d : Nat), IsChain fs a cs d → ∀ f ∈ cs, f ∈ fs := by
  intro cs
  induction cs with
  | nil =>
    intro a d _ f hf
    simp at hf
  | cons g rest ih =>
    intro a d h f hf
    rcases h with ⟨hg, _, hch⟩
    rcases List.mem_cons.mp hf with rfl | hf'
    · exact hg
    · exact ih g.id d hch f hf'

/-- The endpoint of a nonempty chain is the id of some folder row. -/
theorem isChain_last (fs : List Folder) :
    ∀ (cs : List Folder) (a d : Nat), cs ≠ [] → IsChain fs a cs d → ∃ f ∈ fs, f.id = d
  | [], _, _, h, _ => absurd rfl h
  | [g], _, _, _, hch => ⟨g, hch.1, hch.2.2.symm⟩
  | g :: g2 :: t, _, d, _, hch => isChain_last fs (g2 :: t) g.id d (by simp) hch.2.2

/-- A list that is not `Nodup` contains the same element at two positions. -/
theorem exists_dup_split {α : Type _} :
    ∀ (l : List α), ¬ l.Nodup → ∃ (x : α) (l₁ l₂ l₃ : List α), l = l₁ ++ x :: l₂ ++ x :: l₃ := by
  intro l
  induction l with
  | nil =>
    intro h
    exact absurd List.nodup_nil h
  | cons a t ih =>
    intro h
    by_cases ha : a ∈ t
    · rcases List.append_of_mem ha with ⟨s1, s2, rfl⟩
      exact ⟨a, [], s1, s2, rfl⟩
    · have hnd : ¬ t.Nodup := fun hnd => h (List.nodup_cons.mpr ⟨ha, hnd⟩)
      rcases ih hnd with ⟨x, l₁, l₂, l₃, rfl⟩
      exact ⟨x, a :: l₁, l₂, l₃, rfl⟩

/-- Cutting the cycle between two occurrences of the same folder keeps a
valid chain. -/
theorem isChain_splice (fs : List Folder) (a d : Nat) (x : Folder)
    (l₁ l₂ l₃ : List Folder) (h : IsChain fs a (l₁ ++ x :: l₂ ++ x :: l₃) d) :
    IsChain fs a (l₁ ++ x :: l₃) d := by
  rcases (isChain_append fs d (l₁ ++ x :: l₂) (x :: l₃) a).mp h with ⟨c, h1, h2⟩
  rcases h2 with ⟨_, _, hl₃⟩
  rcases (isChain_append fs c l₁ (x :: l₂) a).mp h1 with ⟨b, hb1, hb2⟩
  rcases hb2 with ⟨hx, hpx, _⟩
  exact (isChain_append fs d l₁ (x :: l₃) a).mpr ⟨b, hb1, hx, hpx, hl₃⟩

/-- Every nonempty chain can be shortened to one of length at most
`fs.length`. -/
theorem isChain_shorten (fs : List Folder) (a d : Nat) :
    ∀ (n : Nat) (cs : List Folder), cs.length ≤ n → cs ≠ [] → IsChain fs a cs d →
      ∃ cs', cs' ≠ [] ∧ cs'.length ≤ fs.length ∧ IsChain fs a cs' d := by
  intro n
  induction n with
  | zero =>
    intro cs hle hne _
    cases cs with
    | nil => exact absurd rfl hne
    | cons g t => simp at hle
  | succ m ih =>
    intro cs hle hne hch
    by_cases hnd : cs.Nodup
    · exact ⟨cs, hne, (hnd.subperm
        (fun f hf => isChain_subset fs cs a d hch f hf)).length_le, hch⟩
    · rcases exists_dup_split cs hnd with ⟨x, l₁, l₂, l₃, rfl⟩
      refine ih (l₁ ++ x :: l₃) ?_ (by simp) (isChain_splice fs a d x l₁ l₂ l₃ hch)
      simp only [List.length_append, List.length_cons] at hle ⊢
      omega

/-- The cascade iteration only grows. -/
theorem deleteSet_mono (fs : List Folder) (root : Nat) :
    ∀ {i j : Nat}, i ≤ j → deleteSet fs root i ⊆ deleteSet fs root j := by
  intro i j hij
  induction hij with
  | refl => exact fun x h => h
  | step _ ih => exact fun x hx => Finset.mem_union_left _ (ih hx)

/-- Completeness of the iterated cascade along a chain. -/
theorem isChain_mem_deleteSet (fs : List Folder) (root : Nat) :
    ∀ (cs : List Folder) (d : Nat), IsChain fs root cs d → d ∈ deleteSet fs root cs.length := by
  intro cs
  induction cs using List.reverseRecOn with
  | nil =>
    intro d h
    have hd : d = root := h
    simp [deleteSet, hd]
  | append_singleton init f ih =>
    intro d hch
    rcases (isChain_append fs d init [f] root).mp hch with ⟨b, hb, hf2⟩
    rcases hf2 with ⟨hfmem, hfp, hlast⟩
    have hbmem := ih b hb
    rw [List.length_append, List.length_cons, List.length_nil, hlast]
    apply Finset.mem_union_right
    apply List.mem_toFinset.mpr
    apply List.mem_map.mpr
    refine ⟨f, List.mem_filter.mpr ⟨hfmem, ?_⟩, rfl⟩
    rw [hfp]
    simpa using hbmem

/-- Every transitive descendant id lands in the deleted id set. -/
theorem descendant_mem_cascadeIds (fs : List Folder) (root d : Nat)
    (h : IsDescendant fs root d) : d ∈ cascadeIds fs root := by
  rcases h with ⟨cs, hne, hch⟩
  rcases isChain_shorten fs root d cs.length cs le_rfl hne hch with ⟨cs', _, hlen', hch'⟩
  exact deleteSet_mono fs root hlen' (isChain_mem_deleteSet fs root cs' d hch')

/-- The deleted folder's own id is in the deleted id set. -/
theorem root_mem_cascadeIds (fs : List Folder) (root : Nat) : root ∈ cascadeIds fs root :=
  deleteSet_mono fs root (Nat.zero_le _) (by simp [deleteSet])

/-- After the cascade no surviving row carries a deleted id. -/
theorem cascadeDelete_find?_none (fs : List Folder) (root x : Nat)
    (hx : x ∈ cascadeIds fs root) :
    (cascadeDelete fs root).find? (fun f : Folder => f.id == x) = none := by
  rw [List.find?_eq_none]
  intro f hf hpx
  have hnotin : f.id ∉ cascadeIds fs root := by
    have := (List.mem_filter.mp hf).2
    simpa using this
  exact hnotin (by rw [beq_iff_eq.mp hpx]; exact hx)

/-- C7.  `DELETE /folders/:folderId` (with positive row ids, as produced by
`AUTOINCREMENT`): 404 on a missing folder and 403 for a non-creator, both
with unchanged state; otherwise the call succeeds, the `files` and
`file_versions` tables are untouched, and the folder with every transitive
descendant folder is gone — `listContents` on the deleted id and on any
descendant id afterwards answers 404. -/
theorem deleteFolder_spec (s : Catalog) (folderId uid : Nat)
    (hpos : ∀ f ∈ s.folders, 0 < f.id) :
    (s.folders.find? (fun f : Folder => f.id == folderId) = none →
      deleteFolder s folderId uid = (s, .error .notFound)) ∧
    (∀ fl, s.folders.find? (fun f : Folder => f.id == folderId) = some fl →
      fl.createdBy ≠ uid →
      deleteFolder s folderId uid = (s, .error .permissionDenied)) ∧
    (∀ fl, s.folders.find? (fun f : Folder => f.id == folderId) = some fl →
      fl.createdBy = uid →
      ((deleteFolder s folderId uid).2 = .ok () ∧
       (deleteFolder s folderId uid).1.files = s.files ∧
       (deleteFolder s folderId uid).1.versions = s.versions ∧
       listContents (deleteFolder s folderId uid).1 (some folderId) = .error .notFound ∧
       ∀ d, IsDescendant s.folders folderId d →
         listContents (deleteFolder s folderId uid).1 (some d) = .error .notFound)) := by
  refine ⟨?_, ?_, ?_⟩
  · intro h
    simp [deleteFolder, h]
  · intro fl hfl hcb
    simp [deleteFolder, hfl, hcb]
  · intro fl hfl hcb
    have hdel : deleteFolder s folderId uid =
        ({ s with folders := cascadeDelete s.folders folderId }, .ok ()) := by
      simp [deleteFolder, hfl, hcb]
    have hfolders : (deleteFolder s folderId uid).1.folders = cascadeDelete s.folders folderId := by
      rw [hdel]
    refine ⟨by rw [hdel], by rw [hdel], by rw [hdel], ?_, ?_⟩
    · have hid : fl.id = folderId := by simpa using List.find?_some hfl
      have hpos' : folderId ≠ 0 :=
        Nat.pos_iff_ne_zero.mp (hid ▸ hpos fl (List.mem_of_find?_eq_some hfl))
      have hnone := cascadeDelete_find?_none s.folders folderId folderId
        (root_mem_cascadeIds _ _)
      simp [listContents, hfolders, hpos', hnone]
    · intro d hd
      have hd_set := descendant_mem_cascadeIds s.folders folderId d hd
      have hnone := cascadeDelete_find?_none s.folders folderId d hd_set
      rcases hd with ⟨cs, hne, hch⟩
      rcases isChain_last s.folders cs folderId d hne hch with ⟨g, hg, hgid⟩
      have hdpos : d ≠ 0 := Nat.pos_iff_ne_zero.mp (hgid ▸ hpos g hg)
      simp [listContents, hfolders, hdpos, hnone]

/-- Witness for C7 on the three-level tree: deleting the top folder removes
the grandchild as well. -/
theorem deleteFolder_spec_witness :
    (∀ f ∈ demoTreeCatalog.folders, 0 < f.id) ∧
    demoTreeCatalog.folders.find? (fun f : Folder => f.id == 1) = some ⟨1, "top", none, 1, 10⟩ ∧
    ((deleteFolder demoTreeCatalog 1 1).2 = .ok () ∧
      listContents (deleteFolder demoTreeCatalog 1 1).1 (some 3) = .error .notFound) := by
  have h := (deleteFolder_spec demoTreeCatalog 1 1 (by decide)).2.2
    ⟨1, "top", none, 1, 10⟩ (by decide) (by decide)
  refine ⟨by decide, by decide, h.1, ?_⟩
  apply h.2.2.2.2 3
  exact ⟨[⟨2, "mid", some 1, 1, 11⟩, ⟨3, "leaf", some 2, 2, 12⟩],
    by simp, by decide, rfl, by decide, rfl, rfl⟩

end FileServer

namespace FileServer

/-! ## C9: sanitization removes separators and traversal sequences -/

/-- Unfolding of `HasDotDot` at a cons cell. -/
theorem hasDotDot_cons (c : Char) (l : List Char) :
    HasDotDot (c :: l) ↔ (c = '.' ∧ ∃ t, l = '.' :: t) ∨ HasDotDot l := by
  constructor
  · rintro ⟨l₁, l₂, heq⟩
    cases l₁ with
    | nil =>
      injection heq with h1 h2
      exact Or.inl ⟨h1, l₂, h2⟩
    | cons a t =>
      injection heq with h1 h2
      exact Or.inr ⟨t, l₂, h2⟩
  · rintro (⟨rfl, t, rfl⟩ | ⟨l₁, l₂, rfl⟩)
    · exact ⟨[], t, rfl⟩
    · exact ⟨c :: l₁, l₂, rfl⟩

/-- When the replacement output starts with a dot, so did the input, and its
second character is not a dot. -/
theorem replaceDotDot_head :
    ∀ (l t : List Char), replaceDotDot l = '.' :: t →
      ∃ r, l = '.' :: r ∧ ∀ r', r ≠ '.' :: r'
  | [], _, h => by simp [replaceDotDot] at h
  | [c], _, h => by
      simp only [replaceDotDot] at h
      injection h with h1 _
      exact ⟨[], by rw [h1], fun r' h' => by simp at h'⟩
  | c :: d :: rest, t, h => by
      simp only [replaceDotDot] at h
      by_cases hcd : c = '.' ∧ d = '.'
      · rw [if_pos hcd] at h
        injection h with h1 _
        exact absurd h1 (by decide)
      · rw [if_neg hcd] at h
        injection h with h1 _
        subst h1
        refine ⟨d :: rest, rfl, ?_⟩
        intro r' h'
        injection h' with hd _
        exact hcd ⟨rfl, hd⟩

/-- Replacing every `..` leaves no adjacent dot pair: the global regex
replacement is exhaustive. -/
theorem not_hasDotDot_replaceDotDot : ∀ l : List Char, ¬ HasDotDot (replaceDotDot l)
  | [] => by
      intro h
      rcases h with ⟨l₁, l₂, h⟩
      cases l₁ <;> simp [replaceDotDot] at h
  | [c] => by
      intro h
      rcases h with ⟨l₁, l₂, h⟩
      simp only [replaceDotDot] at h
      cases l₁ with
      | nil => simp at h
      | cons a t => simp at h
  | c :: d :: rest => by
      intro h
      by_cases hcd : c = '.' ∧ d = '.'
      · rw [show replaceDotDot (c :: d :: rest) = '_' :: replaceDotDot rest from by
            simp [replaceDotDot, hcd]] at h
        rcases (hasDotDot_cons _ _).mp h with ⟨h1, _⟩ | h2
        · exact absurd h1 (by decide)
        · exact not_hasDotDot_replaceDotDot rest h2
      · rw [show replaceDotDot (c :: d :: rest) = c :: replaceDotDot (d :: rest) from by
            simp [replaceDotDot, hcd]] at h
        rcases (hasDotDot_cons _ _).mp h with ⟨hc, t, ht⟩ | h2
        · rcases replaceDotDot_head (d :: rest) t ht with ⟨r, hr, _⟩
          injection hr with hd _
          exact hcd ⟨hc, hd⟩
        · exact not_hasDotDot_replaceDotDot (d :: rest) h2

/-- A character map that only introduces dots from dots cannot create an
adjacent dot pair. -/
theorem not_hasDotDot_map (g : Char → Char) (hg : ∀ c, g c = '.' → c = '.') :
    ∀ l : List Char, ¬ HasDotDot l → ¬ HasDotDot (l.map g) := by
  intro l
  induction l with
  | nil =>
    intro _ h
    rcases h with ⟨l₁, l₂, h⟩
    cases l₁ <;> simp at h
  | cons c t ih =>
    intro hnl hm
    rw [List.map_cons] at hm
    rcases (hasDotDot_cons _ _).mp hm with ⟨hc, r, hr⟩ | h2
    · cases t with
      | nil => simp at hr
      | cons y t₀ =>
        rw [List.map_cons] at hr
        injection hr with hy _
        apply hnl
        exact (hasDotDot_cons c (y :: t₀)).mpr (Or.inl ⟨hg c hc, t₀, by rw [hg y hy]⟩)
    · exact ih (fun hh => hnl ((hasDotDot_cons _ _).mpr (Or.inr hh))) h2

/-- Trimming splits the list as prefix ++ result ++ suffix. -/
theorem trimChars_decomp (l : List Char) :
    ∃ w₁ w₂, l = w₁ ++ trimChars l ++ w₂ := by
  refine ⟨l.takeWhile Char.isWhitespace,
    ((l.dropWhile Char.isWhitespace).reverse.takeWhile Char.isWhitespace).reverse, ?_⟩
  have h1 : l = l.takeWhile Char.isWhitespace ++ l.dropWhile Char.isWhitespace :=
    (List.takeWhile_append_dropWhile _ _).symm
  have h2 : l.dropWhile Char.isWhitespace =
      trimChars l ++
        ((l.dropWhile Char.isWhitespace).reverse.takeWhile Char.isWhitespace).reverse := by
    unfold trimChars
    conv_lhs => rw [← List.reverse_reverse (l.dropWhile Char.isWhitespace),
      ← List.takeWhile_append_dropWhile Char.isWhitespace
        (l.dropWhile Char.isWhitespace).reverse]
    rw [List.reverse_append]
  rw [List.append_assoc, ← h2]
  exact h1

/-- Membership in the trimmed list implies membership in the original. -/
theorem trimChars_subset (l : List Char) : trimChars l ⊆ l := by
  rcases trimChars_decomp l with ⟨w₁, w₂, hl⟩
  intro c hc
  rw [hl]
  simp only [List.mem_append]
  exact Or.inl (Or.inr hc)

/-- An adjacent dot pair in a middle segment survives embedding. -/
theorem hasDotDot_of_middle (w₁ mid w₂ : List Char) (h : HasDotDot mid) :
    HasDotDot (w₁ ++ mid ++ w₂) := by
  rcases h with ⟨l₁, l₂, rfl⟩
  exact ⟨w₁ ++ l₁, l₂ ++ w₂, by simp⟩

/-- Characters of the replacement output come from the input or are `_`. -/
theorem mem_replaceDotDot :
    ∀ (l : List Char) (c : Char), c ∈ replaceDotDot l → c = '_' ∨ c ∈ l
  | [], c, h => by simp [replaceDotDot] at h
  | [a], c, h => by
      simp only [replaceDotDot] at h
      exact Or.inr h
  | a :: b :: rest, c, h => by
      by_cases hab : a = '.' ∧ b = '.'
      · rw [show replaceDotDot (a :: b :: rest) = '_' :: replaceDotDot rest from by
            simp [replaceDotDot, hab]] at h
        rcases List.mem_cons.mp h with rfl | h'
        · exact Or.inl rfl
        · rcases mem_replaceDotDot rest c h' with h1 | h2
          · exact Or.inl h1
          · exact Or.inr (by simp [h2])
      · rw [show replaceDotDot (a :: b :: rest) = a :: replaceDotDot (b :: rest) from by
            simp [replaceDotDot, hab]] at h
        rcases List.mem_cons.mp h with rfl | h'
        · exact Or.inr (by simp)
        · rcases mem_replaceDotDot (b :: rest) c h' with h1 | h2
          · exact Or.inl h1
          · exact Or.inr (List.mem_cons_of_mem a h2)

/-- C9.  `sanitizeFilename` output never contains `/`, `\` or the substring
`..`; consequently the name stored by a folder-creation call is either a
pre-existing row's name or exactly such a sanitized value (the same function
also produces the sanitized base of every generated storage key). -/
theorem sanitizeFilename_no_traversal (s : String) :
    ('/' ∉ (sanitizeFilename s).data ∧ '\\' ∉ (sanitizeFilename s).data ∧
      ¬ HasDotDot (sanitizeFilename s).data) ∧
    ∀ (st : Catalog) (name : String) (pf : Option Nat) (uid now : Nat),
      ∀ f ∈ (createFolder st name pf uid now).1.folders,
        f ∈ st.folders ∨ f.name = sanitizeFilename (jsTrim name) := by
  constructor
  · have hsep_mem : ∀ c ∈ replaceSeps s.data, c ≠ '/' ∧ c ≠ '\\' := by
      intro c hc
      rcases List.mem_map.mp hc with ⟨x, _, hx⟩
      subst hx
      by_cases hs : x = '/' ∨ x = '\\'
      · rw [if_pos hs]
        exact ⟨by decide, by decide⟩
      · rw [if_neg hs]
        push_neg at hs
        exact hs
    have h1 : ∀ c ∈ replaceDotDot (replaceSeps s.data), c ≠ '/' ∧ c ≠ '\\' := by
      intro c hc
      rcases mem_replaceDotDot (replaceSeps s.data) c hc with rfl | hc'
      · exact ⟨by decide, by decide⟩
      · exact hsep_mem c hc'
    have h2 : ∀ c ∈ replaceIllegal (replaceDotDot (replaceSeps s.data)), c ≠ '/' ∧ c ≠ '\\' := by
      intro c hc
      rcases List.mem_map.mp hc with ⟨x, hxmem, hx⟩
      subst hx
      by_cases hi : isIllegalChar x = true
      · rw [if_pos hi]
        exact ⟨by decide, by decide⟩
      · rw [if_neg hi]
        exact h1 x hxmem
    have h3 : ∀ c ∈ trimChars (replaceIllegal (replaceDotDot (replaceSeps s.data))),
        c ≠ '/' ∧ c ≠ '\\' :=
      fun c hc => h2 c (trimChars_subset _ hc)
    have hdd2 : ¬ HasDotDot (replaceIllegal (replaceDotDot (replaceSeps s.data))) := by
      apply not_hasDotDot_map (fun c => if isIllegalChar c then '_' else c) ?_
        (replaceDotDot (replaceSeps s.data)) (not_hasDotDot_replaceDotDot _)
      intro c hgc
      have hgc' : (if isIllegalChar c = true then '_' else c) = '.' := hgc
      by_cases hi : isIllegalChar c = true
      · rw [if_pos hi] at hgc'
        exact absurd hgc' (by decide)
      · rwa [if_neg hi] at hgc'
    have hdd3 : ¬ HasDotDot (trimChars (replaceIllegal (replaceDotDot (replaceSeps s.data)))) := by
      intro hdd
      rcases trimChars_decomp (replaceIllegal (replaceDotDot (replaceSeps s.data)))
        with ⟨w₁, w₂, hw⟩
      exact hdd2 (by rw [hw]; exact hasDotDot_of_middle w₁ _ w₂ hdd)
    exact ⟨fun hmem => (h3 '/' hmem).1 rfl, fun hmem => (h3 '\\' hmem).2 rfl, hdd3⟩
  · intro st name pf uid now f hf
    simp only [createFolder] at hf
    split_ifs at hf with g1 g2 g3
    · exact Or.inl hf
    · exact Or.inl hf
    · exact Or.inl hf
    · split at hf
      · exact Or.inl hf
      · rcases List.mem_append.mp hf with h | h
        · exact Or.inl h
        · right
          have hfe : f = ⟨st.nextFolderId, sanitizeFilename (jsTrim name),
              jsTruthyId pf, uid, now⟩ := by simpa using h
          rw [hfe]

/-- Witness for C9 on a traversal-laden input and on a concrete folder
creation. -/
theorem sanitizeFilename_no_traversal_witness :
    ('/' ∉ (sanitizeFilename "a/..").data ∧ '\\' ∉ (sanitizeFilename "a/..").data ∧
      ¬ HasDotDot (sanitizeFilename "a/..").data) ∧
    ∀ f ∈ (createFolder scenarioFolder "evil/../name" none 1 300).1.folders,
      f ∈ scenarioFolder.folders ∨ f.name = sanitizeFilename (jsTrim "evil/../name") :=
  ⟨(sanitizeFilename_no_traversal "a/..").1,
   (sanitizeFilename_no_traversal "a/..").2 scenarioFolder "evil/../name" none 1 300⟩

end FileServer
